import Mathlib

/-!
Verification of the FCIDUMP integral parser and spin-block expander of
`qc2/ase/dirac.py` (`DIRAC.get_integrals` and the expansion part of
`DIRAC.save`).

Scalars coming out of the parser are modelled by `PyScalar`, which keeps
Python's dynamic distinction between a `float` and a `complex`: the real
branch of the parser builds floats, the complex branch builds complex
values. The dense arrays of `DIRAC.save` are allocated with
`dtype=np.float64`, so a cell holds a real number (modelled exactly as a
rational); assigning a scalar into such an array converts it with
`float(...)`, which succeeds for a Python float and raises `TypeError`
for a Python complex (even one with zero imaginary part). Python
dictionaries are modelled as functions into `Option`, written by
pointwise update; a computation that can raise (`KeyError`,
`TypeError`, `IndexError`, `ValueError`) is `Option`-valued, `none`
meaning the Python code raises.
-/

/-- A numeric scalar with Python's dynamic type: a `float` or a
`complex` (represented exactly by rationals). -/
inductive PyScalar where
  | real (q : ℚ)
  | cplx (re im : ℚ)
deriving DecidableEq

/-- `np.conj`: identity on a float, negates the imaginary part of a
complex value (the result keeps the argument's type). -/
def pyConj : PyScalar → PyScalar
  | .real q => .real q
  | .cplx re im => .cplx re (-im)

/-- The `float(...)` conversion NumPy applies when a scalar is assigned
into a `np.float64` array: succeeds on a float, raises `TypeError` on a
complex value (regardless of its imaginary part). -/
def pyFloat64 : PyScalar → Option ℚ
  | .real q => some q
  | .cplx _ _ => none

/-- `EQ_TOLERANCE = 1e-8` (`np.abs` of a `np.float64` entry is `|x|`). -/
def tol : ℚ := 1 / 10 ^ 8

/-- `np.conj` applied to a `np.float64` array element: floats are their
own conjugates, so this is the identity. -/
def conjFloat (x : ℚ) : ℚ := x

/-- Spatial index quadruple `(p, q, r, s)`. -/
abbrev Idx4 := ℕ × ℕ × ℕ × ℕ

/-- A dense two-body block: `np.zeros((nmo,nmo,nmo,nmo), dtype=float64)`
with writes, so every cell is a real number. -/
abbrev TBTensor := Idx4 → ℚ

/-- The sparse two-body map `two_body_int` (a Python dict). -/
abbrev TBMap := Idx4 → Option PyScalar

/-- A dense one-body matrix (`np.zeros((nmo,nmo), dtype=float64)`). -/
abbrev OBTensor := ℕ × ℕ → ℚ

/-- The sparse one-body map `one_body_int` (a Python dict). -/
abbrev OBMap := ℕ × ℕ → Option PyScalar

/-- Single float64 array-cell write `t[i] = a` (value already
converted). -/
def updT (t : TBTensor) (i : Idx4) (a : ℚ) : TBTensor :=
  fun j => if j = i then a else t j

/-- Single float64 matrix-cell write `m[i] = a`. -/
def updM (m : OBTensor) (i : ℕ × ℕ) (a : ℚ) : OBTensor :=
  fun j => if j = i then a else m j

/-- The four symmetry assignments the code performs for one matched
term, in source order: `t[p,q,r,s] = v; t[q,p,s,r] = v;
t[r,s,p,q] = conj(v); t[s,r,q,p] = conj(v)`. Each assignment into the
float64 array converts its scalar with `float(...)`; a complex scalar
(and its conjugate, which is also complex) raises `TypeError`, so the
whole group of writes either stores real numbers or raises. A later
write overwrites an earlier one when the destinations coincide. -/
def writeSym (t : TBTensor) (p q r s : ℕ) (v : PyScalar) :
    Option TBTensor :=
  match pyFloat64 v, pyFloat64 (pyConj v) with
  | some a, some b =>
      some (updT (updT (updT (updT t (p, q, r, s) a) (q, p, s, r) a)
          (r, s, p, q) b)
        (s, r, q, p) b)
  | _, _ => none

/-- The four dense two-body blocks being filled. -/
structure TBState where
  aa : TBTensor
  bb : TBTensor
  ab : TBTensor
  ba : TBTensor

/-- All-zero initial blocks (`np.zeros`). -/
def initTB : TBState := ⟨fun _ => 0, fun _ => 0, fun _ => 0, fun _ => 0⟩

/-- Alpha-doubled key `(2p+1, 2q+1, 2r+1, 2s+1)` of a spatial quadruple. -/
def aaKey (x : Idx4) : Idx4 :=
  (2 * x.1 + 1, 2 * x.2.1 + 1, 2 * x.2.2.1 + 1, 2 * x.2.2.2 + 1)

/-- Beta-doubled key `(2p+2, 2q+2, 2r+2, 2s+2)`. -/
def bbKey (x : Idx4) : Idx4 :=
  (2 * x.1 + 2, 2 * x.2.1 + 2, 2 * x.2.2.1 + 2, 2 * x.2.2.2 + 2)

/-- Alpha-beta-doubled key `(2p+1, 2q+2, 2r+2, 2s+1)`. -/
def abKey (x : Idx4) : Idx4 :=
  (2 * x.1 + 1, 2 * x.2.1 + 2, 2 * x.2.2.1 + 2, 2 * x.2.2.2 + 1)

/-- Beta-alpha-doubled key `(2p+2, 2q+1, 2r+1, 2s+2)`. -/
def baKey (x : Idx4) : Idx4 :=
  (2 * x.1 + 2, 2 * x.2.1 + 1, 2 * x.2.2.1 + 1, 2 * x.2.2.2 + 2)

/-- First check of the loop body: when the alpha-alpha doubled key is
present, its value is propagated into all four blocks (restricted
fill), writing `block_aa`, `block_ba`, `block_ab`, `block_bb` in source
order; any of the float64 assignments raises on a complex value. -/
def fillAA (tb : TBMap) (st : TBState) (x : Idx4) : Option TBState :=
  match tb (aaKey x) with
  | some v =>
      (writeSym st.aa x.1 x.2.1 x.2.2.1 x.2.2.2 v).bind fun taa =>
        (writeSym st.ba x.1 x.2.1 x.2.2.1 x.2.2.2 v).bind fun tba =>
          (writeSym st.ab x.1 x.2.1 x.2.2.1 x.2.2.2 v).bind fun tab =>
            (writeSym st.bb x.1 x.2.1 x.2.2.1 x.2.2.2 v).map fun tbb =>
              ⟨taa, tbb, tab, tba⟩
  | none => some st

/-- Second check: a present beta-beta doubled key writes `block_bb`. -/
def fillBB (tb : TBMap) (st : TBState) (x : Idx4) : Option TBState :=
  match tb (bbKey x) with
  | some v =>
      (writeSym st.bb x.1 x.2.1 x.2.2.1 x.2.2.2 v).map fun t2 =>
        { st with bb := t2 }
  | none => some st

/-- Third check: a present alpha-beta doubled key writes `block_ab`. -/
def fillAB (tb : TBMap) (st : TBState) (x : Idx4) : Option TBState :=
  match tb (abKey x) with
  | some v =>
      (writeSym st.ab x.1 x.2.1 x.2.2.1 x.2.2.2 v).map fun t2 =>
        { st with ab := t2 }
  | none => some st

/-- Fourth check: a present beta-alpha doubled key writes `block_ba`. -/
def fillBA (tb : TBMap) (st : TBState) (x : Idx4) : Option TBState :=
  match tb (baKey x) with
  | some v =>
      (writeSym st.ba x.1 x.2.1 x.2.2.1 x.2.2.2 v).map fun t2 =>
        { st with ba := t2 }
  | none => some st

/-- Body of the innermost loop of the two-body expansion in
`DIRAC.save`: for the spatial quadruple `x = (p,q,r,s)` check the
alpha-alpha, beta-beta, alpha-beta and beta-alpha doubled keys
independently, in that source order; a raising assignment aborts the
whole pass. -/
def stepQuad (tb : TBMap) (st : TBState) (x : Idx4) : Option TBState :=
  (fillAA tb st x).bind fun st1 =>
    (fillBB tb st1 x).bind fun st2 =>
      (fillAB tb st2 x).bind fun st3 => fillBA tb st3 x

/-- `[(p, q) | p <- range n, q <- range n]` in loop order. -/
def pairList (n : ℕ) : List (ℕ × ℕ) :=
  ((List.range n).map fun p => (List.range n).map fun q => (p, q)).flatten

/-- `[(p, q, r, s) | ...]` in the nested ascending loop order of the code. -/
def quadList (n : ℕ) : List Idx4 :=
  ((pairList n).map fun pq =>
    (pairList n).map fun rs => (pq.1, pq.2, rs.1, rs.2)).flatten

/-- The full two-body expansion loop (before truncation); `none` models
the loop raising (`TypeError` on a complex assignment). -/
def twoBodyExpandRaw (tb : TBMap) (n : ℕ) : Option TBState :=
  (quadList n).foldlM (stepQuad tb) initTB

/-- Truncation of a two-body block:
`t[np.abs(t) < EQ_TOLERANCE] = 0.`. -/
def truncT (t : TBTensor) : TBTensor :=
  fun i => if |t i| < tol then 0 else t i

/-- Truncation of a one-body matrix. -/
def truncM (m : OBTensor) : OBTensor :=
  fun i => if |m i| < tol then 0 else m i

/-- Two-body expansion followed by truncation of all four blocks. -/
def twoBodyExpand (tb : TBMap) (n : ℕ) : Option TBState :=
  (twoBodyExpandRaw tb n).map fun st =>
    ⟨truncT st.aa, truncT st.bb, truncT st.ab, truncT st.ba⟩

/-- Body of the one-body loop: `one_body_coefficients_a[p,q] =
one_body_integrals[(2p+1, 2q+1)]` and `one_body_coefficients_b[p,q] =
one_body_integrals[(2p+2, 2q+2)]`. A missing key raises `KeyError` and
a complex value raises `TypeError` on the float64 assignment; both are
`none` here (`(..).bind pyFloat64 = none` covers exactly these two
cases). -/
def obStep (ob : OBMap) (st : OBTensor × OBTensor) (pq : ℕ × ℕ) :
    Option (OBTensor × OBTensor) :=
  match (ob (2 * pq.1 + 1, 2 * pq.2 + 1)).bind pyFloat64,
      (ob (2 * pq.1 + 2, 2 * pq.2 + 2)).bind pyFloat64 with
  | some a, some b => some (updM st.1 pq a, updM st.2 pq b)
  | _, _ => none

/-- The one-body expansion loop of `DIRAC.save` (before truncation):
direct dict lookups, no symmetry fill-in; the loop raises on the first
missing key or complex value. -/
def oneBodyExpand (ob : OBMap) (n : ℕ) : Option (OBTensor × OBTensor) :=
  (pairList n).foldlM (obStep ob) (fun _ => 0, fun _ => 0)

/-- The six dense outputs of the expansion part of `DIRAC.save`. -/
structure SpinBlockTensor where
  alpha_one : OBTensor
  beta_one : OBTensor
  aa : TBTensor
  bb : TBTensor
  ab : TBTensor
  ba : TBTensor

/-- The whole expansion pass of `DIRAC.save`: one-body loop, one-body
truncation, two-body loop, two-body truncation. `none` models the pass
raising in either loop. -/
def expandAll (ob : OBMap) (tb : TBMap) (n : ℕ) : Option SpinBlockTensor :=
  match oneBodyExpand ob n with
  | none => none
  | some ab =>
      match twoBodyExpand tb n with
      | none => none
      | some st =>
          some ⟨truncM ab.1, truncM ab.2, st.aa, st.bb, st.ab, st.ba⟩

section ParserModel

/-- A whitespace token of the FCIDUMP file, abstracted by how Python's
`int()` and `float()` behave on it: an integer literal (both succeed),
a non-integer numeric literal (only `float()` succeeds), or a
non-numeric token (both raise `ValueError`). -/
inductive Token where
  | intTok (z : ℤ)
  | floatTok (q : ℚ)
  | badTok
deriving DecidableEq

/-- Python `int(token)` (`none` = raises `ValueError`). -/
def pyInt : Token → Option ℤ
  | .intTok z => some z
  | _ => none

/-- Python `float(token)` (`none` = raises `ValueError`). -/
def pyFloat : Token → Option ℚ
  | .intTok z => some (z : ℚ)
  | .floatTok q => some q
  | .badTok => none

/-- One line of the FCIDUMP stream: whether the raw line contains the
substring `&END` anywhere, and its whitespace-split token list. -/
structure Line where
  hasEnd : Bool
  toks : List Token
deriving DecidableEq

/-- The sparse integral store produced by `DIRAC.get_integrals`; the
real parser branch stores Python floats, the complex branch stores
Python complex values. -/
structure IntegralRecord where
  e_core : PyScalar
  spinor : ℤ → Option PyScalar
  one_body : ℤ × ℤ → Option PyScalar
  two_body : ℤ × ℤ × ℤ × ℤ → Option PyScalar

/-- `e_core = 0` and three empty dicts. -/
def initRecord : IntegralRecord :=
  ⟨.real 0, fun _ => none, fun _ => none, fun _ => none⟩

/-- Dict write `d[k] = v` (overwrites an existing key). -/
def updF {α : Type} (f : α → Option PyScalar) (k : α) (v : PyScalar)
    [DecidableEq α] : α → Option PyScalar :=
  fun x => if x = k then some v else f x

/-- The zero-index classification shared by the real and complex
branches of `DIRAC.get_integrals`: all indices zero stores `e_core`,
one non-zero leading index stores a spinor value, `idx3 = idx4 = 0`
with `idx2 ≠ 0` stores a one-body entry keyed `(idx1, idx2)` (the code
does not test `idx1` there), anything else a two-body entry. -/
def classifyRow (rec : IntegralRecord) (a1 a2 a3 a4 : ℤ) (v : PyScalar) :
    IntegralRecord :=
  if a4 = 0 ∧ a3 = 0 then
    if a2 = 0 then
      if a1 = 0 then { rec with e_core := v }
      else { rec with spinor := updF rec.spinor a1 v }
    else { rec with one_body := updF rec.one_body (a1, a2) v }
  else { rec with two_body := updF rec.two_body (a1, a2, a3, a4) v }

/-- One data row of a real-classified file: `a_1..a_4 = int(row[1..4])`,
value `float(row[0])` (a Python float), then the zero-index
classification of the code. `none` models `IndexError`/`ValueError`
aborting the conversion. -/
def parseRealRow (rec : IntegralRecord) (row : List Token) :
    Option IntegralRecord :=
  match (row.get? 1).bind pyInt, (row.get? 2).bind pyInt,
      (row.get? 3).bind pyInt, (row.get? 4).bind pyInt,
      (row.get? 0).bind pyFloat with
  | some a1, some a2, some a3, some a4, some v =>
      some (classifyRow rec a1 a2 a3 a4 (.real v))
  | _, _, _, _, _ => none

/-- One data row of a complex-classified file: `a_1..a_4 =
int(row[2..5])`, value `complex(float(row[0]), float(row[1]))` (a
Python complex). -/
def parseComplexRow (rec : IntegralRecord) (row : List Token) :
    Option IntegralRecord :=
  match (row.get? 2).bind pyInt, (row.get? 3).bind pyInt,
      (row.get? 4).bind pyInt, (row.get? 5).bind pyInt,
      (row.get? 0).bind pyFloat, (row.get? 1).bind pyFloat with
  | some a1, some a2, some a3, some a4, some vre, some vim =>
      some (classifyRow rec a1 a2 a3 a4 (.cplx vre vim))
  | _, _, _, _, _, _ => none

/-- The header loop `for line in f: ...; if "&END" in line: break`:
returns the lines strictly after the first line containing `&END`,
or `none` when no line contains it (the whole stream is consumed). -/
def splitHeader : List Line → Option (List Line)
  | [] => none
  | l :: ls => if l.hasEnd then some ls else splitHeader ls

/-- The data phase of `DIRAC.get_integrals`: tokenize the remaining
lines, classify real/complex from the first row's token count
(`len(listed_values[0]) == 6`), then fold the matching row parser over
every row. An empty row list models the `listed_values[0]` `IndexError`. -/
def parseData (rest : List Line) : Option IntegralRecord :=
  match rest.map Line.toks with
  | [] => none
  | first :: others =>
      if first.length = 6 then
        (first :: others).foldlM parseComplexRow initRecord
      else
        (first :: others).foldlM parseRealRow initRecord

/-- `DIRAC.get_integrals` on an FCIDUMP stream (after the external
program ran): header skip, then the data phase. -/
def get_integrals (lines : List Line) : Option IntegralRecord :=
  match splitHeader lines with
  | none => none
  | some rest => parseData rest

end ParserModel

section BasicLemmas

theorem mem_pairList {n : ℕ} {pq : ℕ × ℕ} :
    pq ∈ pairList n ↔ pq.1 < n ∧ pq.2 < n := by
  cases pq with
  | mk p q =>
    simp only [pairList, List.mem_flatten, List.mem_map]
    constructor
    · rintro ⟨s, ⟨p', hp', rfl⟩, hs⟩
      rcases List.mem_map.1 hs with ⟨q', hq', hq⟩
      cases hq
      exact ⟨List.mem_range.1 hp', List.mem_range.1 hq'⟩
    · rintro ⟨hp, hq⟩
      exact ⟨(List.range n).map fun q' => (p, q'),
        ⟨p, List.mem_range.2 hp, rfl⟩,
        List.mem_map.2 ⟨q, List.mem_range.2 hq, rfl⟩⟩

theorem mem_quadList {n : ℕ} {x : Idx4} :
    x ∈ quadList n ↔ x.1 < n ∧ x.2.1 < n ∧ x.2.2.1 < n ∧ x.2.2.2 < n := by
  obtain ⟨p, q, r, s⟩ := x
  simp only [quadList, List.mem_flatten, List.mem_map]
  constructor
  · rintro ⟨w, ⟨pq, hpq, rfl⟩, hw⟩
    rcases List.mem_map.1 hw with ⟨rs, hrs, hx⟩
    cases hx
    rcases mem_pairList.1 hpq with ⟨h1, h2⟩
    rcases mem_pairList.1 hrs with ⟨h3, h4⟩
    exact ⟨h1, h2, h3, h4⟩
  · rintro ⟨hp, hq, hr, hs⟩
    exact ⟨(pairList n).map fun rs => (p, q, rs.1, rs.2),
      ⟨(p, q), mem_pairList.2 ⟨hp, hq⟩, rfl⟩,
      List.mem_map.2 ⟨(r, s), mem_pairList.2 ⟨hr, hs⟩, rfl⟩⟩

theorem tol_pos : 0 < tol := by norm_num [tol]

/-- If a truncated element still has magnitude below the tolerance, it
is exactly zero. -/
theorem truncT_small (t : TBTensor) (i : Idx4)
    (h : |truncT t i| < tol) : truncT t i = 0 := by
  unfold truncT at *
  split_ifs at * with h0
  · rfl
  · exact absurd h h0

theorem truncM_small (m : OBTensor) (i : ℕ × ℕ)
    (h : |truncM m i| < tol) : truncM m i = 0 := by
  unfold truncM at *
  split_ifs at * with h0
  · rfl
  · exact absurd h h0

/-- Truncation is idempotent. -/
theorem truncT_idem (t : TBTensor) : truncT (truncT t) = truncT t := by
  funext i
  unfold truncT
  by_cases h : |t i| < tol
  · simp only [h, if_true]
    rw [if_pos]
    rw [abs_zero]
    exact tol_pos
  · simp only [h, if_false]

theorem truncM_idem (m : OBTensor) : truncM (truncM m) = truncM m := by
  funext i
  unfold truncM
  by_cases h : |m i| < tol
  · simp only [h, if_true]
    rw [if_pos]
    rw [abs_zero]
    exact tol_pos
  · simp only [h, if_false]

end BasicLemmas

section OrbitLemmas

/-- `(p,q,r,s) ↦ (q,p,s,r)`: swap within each electron pair. -/
def swapIn (i : Idx4) : Idx4 := (i.2.1, i.1, i.2.2.2, i.2.2.1)

/-- `(p,q,r,s) ↦ (r,s,p,q)`: swap the two electron pairs. -/
def swapPair (i : Idx4) : Idx4 := (i.2.2.1, i.2.2.2, i.1, i.2.1)

theorem swapIn_swapIn (i : Idx4) : swapIn (swapIn i) = i := rfl

theorem swapPair_swapPair (i : Idx4) : swapPair (swapPair i) = i := rfl

theorem swapIn_swapPair (i : Idx4) :
    swapIn (swapPair i) = swapPair (swapIn i) := rfl

/-- The set of destinations of the four symmetry writes started at `x`. -/
def orbit (x i : Idx4) : Prop :=
  i = x ∨ i = swapIn x ∨ i = swapPair x ∨ i = swapIn (swapPair x)

instance (x i : Idx4) : Decidable (orbit x i) := by
  unfold orbit
  infer_instance

theorem swapIn_eq_iff {i j : Idx4} : swapIn i = j ↔ i = swapIn j := by
  constructor
  · rintro rfl
    rw [swapIn_swapIn]
  · rintro rfl
    rw [swapIn_swapIn]

theorem swapPair_eq_iff {i j : Idx4} : swapPair i = j ↔ i = swapPair j := by
  constructor
  · rintro rfl
    rw [swapPair_swapPair]
  · rintro rfl
    rw [swapPair_swapPair]

theorem orbit_swapIn {x i : Idx4} : orbit x (swapIn i) ↔ orbit x i := by
  unfold orbit
  simp only [swapIn_eq_iff, swapIn_swapIn]
  tauto

theorem orbit_swapPair {x i : Idx4} : orbit x (swapPair i) ↔ orbit x i := by
  unfold orbit
  simp only [swapPair_eq_iff, ← swapIn_swapPair, swapPair_swapPair]
  tauto

end OrbitLemmas

section Symmetry

/-- A write of a complex scalar into a float64 block raises. -/
theorem writeSym_cplx (t : TBTensor) (p q r s : ℕ) (re im : ℚ) :
    writeSym t p q r s (.cplx re im) = none := rfl

/-- A write of a float succeeds and performs the four assignments. -/
theorem writeSym_real (t : TBTensor) (p q r s : ℕ) (x : ℚ) :
    writeSym t p q r s (.real x) =
      some (updT (updT (updT (updT t (p, q, r, s) x) (q, p, s, r) x)
          (r, s, p, q) x)
        (s, r, q, p) x) := rfl

/-- The four assignments of one real value write it on the whole orbit
of `(p,q,r,s)` and leave every other cell unchanged. -/
theorem updT_orbit_apply (t : TBTensor) (p q r s : ℕ) (x : ℚ) (i : Idx4) :
    updT (updT (updT (updT t (p, q, r, s) x) (q, p, s, r) x)
        (r, s, p, q) x)
      (s, r, q, p) x i = if orbit (p, q, r, s) i then x else t i := by
  unfold updT
  have horb : orbit (p, q, r, s) i ↔
      (i = (p, q, r, s) ∨ i = (q, p, s, r) ∨
        i = (r, s, p, q) ∨ i = (s, r, q, p)) := Iff.rfl
  simp only [horb]
  split_ifs <;> tauto

/-- Any successful group of symmetry writes stores one real value on
the whole orbit. -/
theorem writeSym_some {t t' : TBTensor} {p q r s : ℕ} {v : PyScalar}
    (h : writeSym t p q r s v = some t') :
    ∃ a : ℚ, ∀ i, t' i = if orbit (p, q, r, s) i then a else t i := by
  cases v with
  | cplx re im =>
      rw [writeSym_cplx] at h
      exact Option.noConfusion h
  | real x =>
      rw [writeSym_real] at h
      cases h
      exact ⟨x, updT_orbit_apply t p q r s x⟩

/-- The permutational symmetry of a (real-valued) block, as plain
equalities. -/
def SymT (t : TBTensor) : Prop :=
  ∀ i, t i = t (swapIn i) ∧ t i = t (swapPair i) ∧
    t i = t (swapIn (swapPair i))

theorem SymT_write {t t' : TBTensor} {p q r s : ℕ} {v : PyScalar}
    (ht : SymT t) (h : writeSym t p q r s v = some t') : SymT t' := by
  obtain ⟨a, hpt⟩ := writeSym_some h
  intro i
  rw [hpt i, hpt (swapIn i), hpt (swapPair i), hpt (swapIn (swapPair i))]
  by_cases hc : orbit (p, q, r, s) i
  · rw [if_pos hc, if_pos (orbit_swapIn.2 hc), if_pos (orbit_swapPair.2 hc),
      if_pos (orbit_swapIn.2 (orbit_swapPair.2 hc))]
    exact ⟨rfl, rfl, rfl⟩
  · rw [if_neg hc, if_neg (fun hx => hc (orbit_swapIn.1 hx)),
      if_neg (fun hx => hc (orbit_swapPair.1 hx)),
      if_neg (fun hx => hc (orbit_swapPair.1 (orbit_swapIn.1 hx)))]
    exact ht i

/-- All four blocks symmetric. -/
def SymSt (st : TBState) : Prop :=
  SymT st.aa ∧ SymT st.bb ∧ SymT st.ab ∧ SymT st.ba

theorem SymSt_fillAA {tb : TBMap} {st st' : TBState} {x : Idx4}
    (h : SymSt st) (hf : fillAA tb st x = some st') : SymSt st' := by
  unfold fillAA at hf
  cases hk : tb (aaKey x) with
  | none =>
      rw [hk] at hf
      cases hf
      exact h
  | some v =>
      rw [hk] at hf
      rw [Option.bind_eq_some] at hf
      obtain ⟨taa, w1, hf⟩ := hf
      rw [Option.bind_eq_some] at hf
      obtain ⟨tba, w2, hf⟩ := hf
      rw [Option.bind_eq_some] at hf
      obtain ⟨tab, w3, hf⟩ := hf
      rw [Option.map_eq_some'] at hf
      obtain ⟨tbb, w4, rfl⟩ := hf
      exact ⟨SymT_write h.1 w1, SymT_write h.2.1 w4, SymT_write h.2.2.1 w3,
        SymT_write h.2.2.2 w2⟩

theorem SymSt_fillBB {tb : TBMap} {st st' : TBState} {x : Idx4}
    (h : SymSt st) (hf : fillBB tb st x = some st') : SymSt st' := by
  unfold fillBB at hf
  cases hk : tb (bbKey x) with
  | none =>
      rw [hk] at hf
      cases hf
      exact h
  | some v =>
      rw [hk] at hf
      rw [Option.map_eq_some'] at hf
      obtain ⟨t2, w, rfl⟩ := hf
      exact ⟨h.1, SymT_write h.2.1 w, h.2.2.1, h.2.2.2⟩

theorem SymSt_fillAB {tb : TBMap} {st st' : TBState} {x : Idx4}
    (h : SymSt st) (hf : fillAB tb st x = some st') : SymSt st' := by
  unfold fillAB at hf
  cases hk : tb (abKey x) with
  | none =>
      rw [hk] at hf
      cases hf
      exact h
  | some v =>
      rw [hk] at hf
      rw [Option.map_eq_some'] at hf
      obtain ⟨t2, w, rfl⟩ := hf
      exact ⟨h.1, h.2.1, SymT_write h.2.2.1 w, h.2.2.2⟩

theorem SymSt_fillBA {tb : TBMap} {st st' : TBState} {x : Idx4}
    (h : SymSt st) (hf : fillBA tb st x = some st') : SymSt st' := by
  unfold fillBA at hf
  cases hk : tb (baKey x) with
  | none =>
      rw [hk] at hf
      cases hf
      exact h
  | some v =>
      rw [hk] at hf
      rw [Option.map_eq_some'] at hf
      obtain ⟨t2, w, rfl⟩ := hf
      exact ⟨h.1, h.2.1, h.2.2.1, SymT_write h.2.2.2 w⟩

theorem SymSt_step {tb : TBMap} {st st' : TBState} {x : Idx4}
    (h : SymSt st) (hs : stepQuad tb st x = some st') : SymSt st' := by
  unfold stepQuad at hs
  rw [Option.bind_eq_some] at hs
  obtain ⟨st1, h1, hs⟩ := hs
  rw [Option.bind_eq_some] at hs
  obtain ⟨st2, h2, hs⟩ := hs
  rw [Option.bind_eq_some] at hs
  obtain ⟨st3, h3, hs⟩ := hs
  exact SymSt_fillBA (SymSt_fillAB (SymSt_fillBB (SymSt_fillAA h h1) h2) h3) hs

theorem SymSt_initTB : SymSt initTB :=
  ⟨fun _ => ⟨rfl, rfl, rfl⟩, fun _ => ⟨rfl, rfl, rfl⟩,
    fun _ => ⟨rfl, rfl, rfl⟩, fun _ => ⟨rfl, rfl, rfl⟩⟩

theorem SymSt_foldl {tb : TBMap} :
    ∀ (l : List Idx4) {st st' : TBState}, SymSt st →
      l.foldlM (stepQuad tb) st = some st' → SymSt st'
  | [], st, st', h, hf => by
      rw [List.foldlM_nil] at hf
      cases hf
      exact h
  | x :: l, st, st', h, hf => by
      rw [List.foldlM_cons] at hf
      cases hstep : stepQuad tb st x with
      | none =>
          rw [hstep] at hf
          exact Option.noConfusion hf
      | some st1 =>
          rw [hstep] at hf
          exact SymSt_foldl l (SymSt_step h hstep) hf

theorem SymT_trunc {t : TBTensor} (h : SymT t) : SymT (truncT t) := by
  intro i
  obtain ⟨e1, e2, e3⟩ := h i
  unfold truncT
  rw [← e1, ← e2, ← e3]
  exact ⟨rfl, rfl, rfl⟩

/-- Every completed two-body expansion (including truncation) has all
four blocks symmetric. -/
theorem SymSt_twoBodyExpand {tb : TBMap} {n : ℕ} {st : TBState}
    (h : twoBodyExpand tb n = some st) : SymSt st := by
  unfold twoBodyExpand at h
  rw [Option.map_eq_some'] at h
  obtain ⟨raw, hraw, rfl⟩ := h
  have hs : SymSt raw := SymSt_foldl (quadList n) SymSt_initTB hraw
  exact ⟨SymT_trunc hs.1, SymT_trunc hs.2.1, SymT_trunc hs.2.2.1,
    SymT_trunc hs.2.2.2⟩

end Symmetry

section RestrictedShell

/-- All four blocks equal. -/
def EqSt (st : TBState) : Prop := st.aa = st.bb ∧ st.aa = st.ab ∧ st.aa = st.ba

theorem EqSt_fillAA {tb : TBMap} {st st' : TBState} {x : Idx4}
    (h : EqSt st) (hf : fillAA tb st x = some st') : EqSt st' := by
  unfold fillAA at hf
  cases hk : tb (aaKey x) with
  | none =>
      rw [hk] at hf
      cases hf
      exact h
  | some v =>
      rw [hk] at hf
      rw [Option.bind_eq_some] at hf
      obtain ⟨taa, w1, hf⟩ := hf
      rw [Option.bind_eq_some] at hf
      obtain ⟨tba, w2, hf⟩ := hf
      rw [Option.bind_eq_some] at hf
      obtain ⟨tab, w3, hf⟩ := hf
      rw [Option.map_eq_some'] at hf
      obtain ⟨tbb, w4, rfl⟩ := hf
      obtain ⟨e1, e2, e3⟩ := h
      rw [← e1] at w4
      rw [← e2] at w3
      rw [← e3] at w2
      exact ⟨Option.some_inj.1 (w1.symm.trans w4),
        Option.some_inj.1 (w1.symm.trans w3),
        Option.some_inj.1 (w1.symm.trans w2)⟩

theorem EqSt_step {tb : TBMap} {st st' : TBState} {x : Idx4} (h : EqSt st)
    (hbb : tb (bbKey x) = none) (hab : tb (abKey x) = none)
    (hba : tb (baKey x) = none) (hs : stepQuad tb st x = some st') :
    EqSt st' := by
  unfold stepQuad at hs
  rw [Option.bind_eq_some] at hs
  obtain ⟨st1, h1, hs⟩ := hs
  rw [Option.bind_eq_some] at hs
  obtain ⟨st2, h2, hs⟩ := hs
  rw [Option.bind_eq_some] at hs
  obtain ⟨st3, h3, hs⟩ := hs
  have hA := EqSt_fillAA h h1
  unfold fillBB at h2
  rw [hbb] at h2
  cases h2
  unfold fillAB at h3
  rw [hab] at h3
  cases h3
  unfold fillBA at hs
  rw [hba] at hs
  cases hs
  exact hA

theorem EqSt_foldl {tb : TBMap} :
    ∀ (l : List Idx4),
      (∀ x ∈ l, tb (bbKey x) = none ∧ tb (abKey x) = none ∧
        tb (baKey x) = none) →
      ∀ {st st' : TBState}, EqSt st →
        l.foldlM (stepQuad tb) st = some st' → EqSt st'
  | [], _, st, st', h, hf => by
      rw [List.foldlM_nil] at hf
      cases hf
      exact h
  | x :: l, hl, st, st', h, hf => by
      rw [List.foldlM_cons] at hf
      cases hstep : stepQuad tb st x with
      | none =>
          rw [hstep] at hf
          exact Option.noConfusion hf
      | some st1 =>
          rw [hstep] at hf
          exact EqSt_foldl l (fun y hy => hl y (List.mem_cons_of_mem x hy))
            (EqSt_step h (hl x (List.mem_cons_self x l)).1
              (hl x (List.mem_cons_self x l)).2.1
              (hl x (List.mem_cons_self x l)).2.2 hstep) hf

end RestrictedShell

section OneBodyLemmas

/-- If some one-body iteration cannot complete — its alpha or beta key
is missing (`KeyError`) or holds a complex value (`TypeError` on the
float64 assignment) — the loop raises. -/
theorem obFold_none {ob : OBMap} :
    ∀ (l : List (ℕ × ℕ)) (st : OBTensor × OBTensor) (pq : ℕ × ℕ), pq ∈ l →
      ((ob (2 * pq.1 + 1, 2 * pq.2 + 1)).bind pyFloat64 = none ∨
        (ob (2 * pq.1 + 2, 2 * pq.2 + 2)).bind pyFloat64 = none) →
      l.foldlM (obStep ob) st = none
  | [], _, _, h, _ => absurd h (List.not_mem_nil _)
  | x :: l, st, pq, h, hmiss => by
      rw [List.foldlM_cons]
      rcases List.mem_cons.1 h with rfl | hmem
      · have hst : obStep ob st pq = none := by
          unfold obStep
          rcases hmiss with hm | hm
          · rw [hm]
          · rw [hm]
            cases (ob (2 * pq.1 + 1, 2 * pq.2 + 1)).bind pyFloat64 <;> rfl
        rw [hst]
        rfl
      · cases hstep : obStep ob st x with
        | none => rfl
        | some st' => exact obFold_none l st' pq hmem hmiss

/-- If every iterated lookup yields a float, the loop succeeds, each
dense cell holds exactly the looked-up sparse value, and cells outside
the iterated range keep their initial value. -/
theorem obFold_some {ob : OBMap} :
    ∀ (l : List (ℕ × ℕ)) (st : OBTensor × OBTensor),
      (∀ pq ∈ l, ((ob (2 * pq.1 + 1, 2 * pq.2 + 1)).bind pyFloat64).isSome ∧
        ((ob (2 * pq.1 + 2, 2 * pq.2 + 2)).bind pyFloat64).isSome) →
      ∃ A B, l.foldlM (obStep ob) st = some (A, B) ∧
        (∀ pq ∈ l,
          (ob (2 * pq.1 + 1, 2 * pq.2 + 1)).bind pyFloat64 = some (A pq) ∧
          (ob (2 * pq.1 + 2, 2 * pq.2 + 2)).bind pyFloat64 = some (B pq)) ∧
        (∀ pq, pq ∉ l → A pq = st.1 pq ∧ B pq = st.2 pq)
  | [], st, _ =>
      ⟨st.1, st.2, rfl, fun pq h => absurd h (List.not_mem_nil _),
        fun _ _ => ⟨rfl, rfl⟩⟩
  | x :: l, st, h => by
      obtain ⟨ha, hb⟩ := h x (List.mem_cons_self x l)
      rcases Option.isSome_iff_exists.1 ha with ⟨va, hva⟩
      rcases Option.isSome_iff_exists.1 hb with ⟨vb, hvb⟩
      have hst : obStep ob st x = some (updM st.1 x va, updM st.2 x vb) := by
        unfold obStep
        rw [hva, hvb]
      rw [List.foldlM_cons, hst]
      obtain ⟨A, B, hfold, hin, hout⟩ :=
        obFold_some l (updM st.1 x va, updM st.2 x vb)
          (fun pq hpq => h pq (List.mem_cons_of_mem x hpq))
      refine ⟨A, B, hfold, ?_, ?_⟩
      · intro pq hpq
        rcases List.mem_cons.1 hpq with rfl | hmem
        · by_cases hx : pq ∈ l
          · exact hin pq hx
          · obtain ⟨e1, e2⟩ := hout pq hx
            simp only [updM] at e1 e2
            simp at e1 e2
            rw [e1, e2]
            exact ⟨hva, hvb⟩
        · exact hin pq hmem
      · intro pq hpq
        rw [List.mem_cons] at hpq
        push_neg at hpq
        obtain ⟨e1, e2⟩ := hout pq hpq.2
        simp only [updM] at e1 e2
        rw [if_neg hpq.1] at e1 e2
        exact ⟨e1, e2⟩

end OneBodyLemmas

section CongruenceLemmas

/-- The one-body loop reads the sparse map only at the doubled keys of
the iterated pairs. -/
theorem obFold_congr {ob ob' : OBMap} :
    ∀ (l : List (ℕ × ℕ)) (st : OBTensor × OBTensor),
      (∀ pq ∈ l,
        ob (2 * pq.1 + 1, 2 * pq.2 + 1) = ob' (2 * pq.1 + 1, 2 * pq.2 + 1) ∧
        ob (2 * pq.1 + 2, 2 * pq.2 + 2) = ob' (2 * pq.1 + 2, 2 * pq.2 + 2)) →
      l.foldlM (obStep ob) st = l.foldlM (obStep ob') st
  | [], _, _ => rfl
  | x :: l, st, h => by
      have hx := h x (List.mem_cons_self x l)
      have hstep : obStep ob st x = obStep ob' st x := by
        unfold obStep
        rw [hx.1, hx.2]
      rw [List.foldlM_cons, List.foldlM_cons, hstep]
      cases hcase : obStep ob' st x with
      | none => rfl
      | some st' =>
          exact obFold_congr l st' fun y hy => h y (List.mem_cons_of_mem x hy)

/-- The two-body loop reads the sparse map only at the four doubled keys
of the iterated quadruples. -/
theorem tbFold_congr {tb tb' : TBMap} :
    ∀ (l : List Idx4) (st : TBState),
      (∀ x ∈ l, tb (aaKey x) = tb' (aaKey x) ∧ tb (bbKey x) = tb' (bbKey x) ∧
        tb (abKey x) = tb' (abKey x) ∧ tb (baKey x) = tb' (baKey x)) →
      l.foldlM (stepQuad tb) st = l.foldlM (stepQuad tb') st
  | [], _, _ => rfl
  | x :: l, st, h => by
      have hx := h x (List.mem_cons_self x l)
      have hstep : stepQuad tb st x = stepQuad tb' st x := by
        unfold stepQuad fillAA fillBB fillAB fillBA
        rw [hx.1, hx.2.1, hx.2.2.1, hx.2.2.2]
      rw [List.foldlM_cons, List.foldlM_cons, hstep]
      cases hcase : stepQuad tb' st x with
      | none => rfl
      | some st1 =>
          exact tbFold_congr l st1 fun y hy => h y (List.mem_cons_of_mem x hy)

end CongruenceLemmas

section ParserLemmas

/-- A successful real row parse yields exactly the lookups and the
shared classification of a float value. -/
theorem parseRealRow_some {rec rec' : IntegralRecord} {row : List Token}
    (h : parseRealRow rec row = some rec') :
    ∃ a1 a2 a3 a4 v,
      (row.get? 1).bind pyInt = some a1 ∧ (row.get? 2).bind pyInt = some a2 ∧
      (row.get? 3).bind pyInt = some a3 ∧ (row.get? 4).bind pyInt = some a4 ∧
      (row.get? 0).bind pyFloat = some v ∧
      rec' = classifyRow rec a1 a2 a3 a4 (.real v) := by
  unfold parseRealRow at h
  rcases h1 : (row.get? 1).bind pyInt with _ | a1 <;>
    rcases h2 : (row.get? 2).bind pyInt with _ | a2 <;>
    rcases h3 : (row.get? 3).bind pyInt with _ | a3 <;>
    rcases h4 : (row.get? 4).bind pyInt with _ | a4 <;>
    rcases h5 : (row.get? 0).bind pyFloat with _ | v <;>
    rw [h1, h2, h3, h4, h5] at h <;>
    first
      | exact Option.noConfusion h
      | exact ⟨a1, a2, a3, a4, v, rfl, rfl, rfl, rfl, rfl,
          (Option.some_inj.1 h).symm⟩

/-- A successful complex row parse yields exactly the lookups and the
shared classification of a complex value. -/
theorem parseComplexRow_some {rec rec' : IntegralRecord} {row : List Token}
    (h : parseComplexRow rec row = some rec') :
    ∃ a1 a2 a3 a4 vre vim,
      (row.get? 2).bind pyInt = some a1 ∧ (row.get? 3).bind pyInt = some a2 ∧
      (row.get? 4).bind pyInt = some a3 ∧ (row.get? 5).bind pyInt = some a4 ∧
      (row.get? 0).bind pyFloat = some vre ∧
      (row.get? 1).bind pyFloat = some vim ∧
      rec' = classifyRow rec a1 a2 a3 a4 (.cplx vre vim) := by
  unfold parseComplexRow at h
  rcases h1 : (row.get? 2).bind pyInt with _ | a1 <;>
    rcases h2 : (row.get? 3).bind pyInt with _ | a2 <;>
    rcases h3 : (row.get? 4).bind pyInt with _ | a3 <;>
    rcases h4 : (row.get? 5).bind pyInt with _ | a4 <;>
    rcases h5 : (row.get? 0).bind pyFloat with _ | vre <;>
    rcases h6 : (row.get? 1).bind pyFloat with _ | vim <;>
    rw [h1, h2, h3, h4, h5, h6] at h <;>
    first
      | exact Option.noConfusion h
      | exact ⟨a1, a2, a3, a4, vre, vim, rfl, rfl, rfl, rfl, rfl, rfl,
          (Option.some_inj.1 h).symm⟩

/-- Invariant: every key of the one-body dict has non-zero second index. -/
def OneBodyKeysOk (rec : IntegralRecord) : Prop :=
  ∀ k : ℤ × ℤ, (rec.one_body k).isSome → k.2 ≠ 0

theorem classifyRow_pres {rec : IntegralRecord} (hp : OneBodyKeysOk rec)
    (a1 a2 a3 a4 : ℤ) (v : PyScalar) :
    OneBodyKeysOk (classifyRow rec a1 a2 a3 a4 v) := by
  unfold classifyRow
  split_ifs with hc1 hc2 hc3
  · exact hp
  · exact hp
  · intro k hk
    unfold updF at hk
    simp only at hk
    split_ifs at hk with he
    · rw [he]
      exact hc2
    · exact hp k hk
  · exact hp

/-- Generic preservation of a record invariant along the row fold. -/
theorem foldlM_pres (f : IntegralRecord → List Token → Option IntegralRecord)
    (P : IntegralRecord → Prop)
    (hf : ∀ a rec rec', f rec a = some rec' → P rec → P rec') :
    ∀ (l : List (List Token)) (rec rec' : IntegralRecord),
      l.foldlM f rec = some rec' → P rec → P rec'
  | [], rec, rec', h, hp => by
      rw [List.foldlM_nil] at h
      cases h
      exact hp
  | a :: l, rec, rec', h, hp => by
      rw [List.foldlM_cons] at h
      cases hstep : f rec a with
      | none =>
          rw [hstep] at h
          exact Option.noConfusion h
      | some rec1 =>
          rw [hstep] at h
          exact foldlM_pres f P hf l rec1 rec' h (hf a rec rec1 hstep hp)

/-- Generic: a successful row fold means every row parsed successfully,
and row success does not depend on the accumulated record. -/
theorem foldlM_rows (f : IntegralRecord → List Token → Option IntegralRecord)
    (Ok : List Token → Bool)
    (hf : ∀ rec rec' a, f rec a = some rec' → Ok a = true) :
    ∀ (l : List (List Token)) (rec rec' : IntegralRecord),
      l.foldlM f rec = some rec' → ∀ a ∈ l, Ok a = true
  | [], _, _, _, a, ha => absurd ha (List.not_mem_nil a)
  | b :: l, rec, rec', h, a, ha => by
      rw [List.foldlM_cons] at h
      cases hstep : f rec b with
      | none =>
          rw [hstep] at h
          exact Option.noConfusion h
      | some rec1 =>
          rw [hstep] at h
          rcases List.mem_cons.1 ha with rfl | hmem
          · exact hf rec rec1 a hstep
          · exact foldlM_rows f Ok hf l rec1 rec' h a hmem

/-- The consumed token positions of a real-classified row: four integer
index fields at positions 1-4 and a float value at position 0. Token
count below 5 or a non-numeric consumed field makes this false; extra
positions beyond 4 are not consulted. -/
def realRowOk (row : List Token) : Bool :=
  ((row.get? 1).bind pyInt).isSome && ((row.get? 2).bind pyInt).isSome &&
    ((row.get? 3).bind pyInt).isSome && ((row.get? 4).bind pyInt).isSome &&
    ((row.get? 0).bind pyFloat).isSome

/-- The consumed token positions of a complex-classified row. -/
def cplxRowOk (row : List Token) : Bool :=
  ((row.get? 2).bind pyInt).isSome && ((row.get? 3).bind pyInt).isSome &&
    ((row.get? 4).bind pyInt).isSome && ((row.get? 5).bind pyInt).isSome &&
    ((row.get? 0).bind pyFloat).isSome && ((row.get? 1).bind pyFloat).isSome

theorem parseRealRow_ok {rec rec' : IntegralRecord} {row : List Token}
    (h : parseRealRow rec row = some rec') : realRowOk row = true := by
  obtain ⟨a1, a2, a3, a4, v, e1, e2, e3, e4, e5, _⟩ := parseRealRow_some h
  unfold realRowOk
  rw [e1, e2, e3, e4, e5]
  rfl

theorem parseComplexRow_ok {rec rec' : IntegralRecord} {row : List Token}
    (h : parseComplexRow rec row = some rec') : cplxRowOk row = true := by
  obtain ⟨a1, a2, a3, a4, vre, vim, e1, e2, e3, e4, e5, e6, _⟩ :=
    parseComplexRow_some h
  unfold cplxRowOk
  rw [e1, e2, e3, e4, e5, e6]
  rfl

/-- All data rows of a split stream parse at their consumed positions,
under the classification taken from the first row's token count. -/
def dataRowsOk (rest : List Line) : Bool :=
  match rest.map Line.toks with
  | [] => false
  | first :: others =>
      if first.length = 6 then (first :: others).all cplxRowOk
      else (first :: others).all realRowOk

/-- The header loop stops at the first line containing `&END`. -/
theorem splitHeader_append (pre : List Line) (endl : Line) (post : List Line)
    (hpre : ∀ l ∈ pre, l.hasEnd = false) (he : endl.hasEnd = true) :
    splitHeader (pre ++ endl :: post) = some post := by
  induction pre with
  | nil => simp [splitHeader, he]
  | cons a pre ih =>
      have ha := hpre a (List.mem_cons_self a pre)
      simp only [List.cons_append, splitHeader, ha, Bool.false_eq_true,
        if_false]
      exact ih fun l hl => hpre l (List.mem_cons_of_mem a hl)

/-- Without any `&END` line the header loop consumes the whole stream. -/
theorem splitHeader_none (lines : List Line)
    (h : ∀ l ∈ lines, l.hasEnd = false) : splitHeader lines = none := by
  induction lines with
  | nil => rfl
  | cons a ls ih =>
      simp only [splitHeader, h a (List.mem_cons_self a ls),
        Bool.false_eq_true, if_false]
      exact ih fun l hl => h l (List.mem_cons_of_mem a hl)

end ParserLemmas

section Examples

/-- One-body sparse map holding only the key `(1, 1)` (a float value). -/
def obOnly11 : OBMap :=
  fun k => if k = (1, 1) then some (.real (-(5 : ℚ)/4)) else none

/-- One-body sparse map holding float values at `(1, 1)` and `(2, 2)`. -/
def obFull : OBMap := fun k =>
  if k = (1, 1) then some (.real (-(5 : ℚ)/4))
  else if k = (2, 2) then some (.real (-(47 : ℚ)/100)) else none

/-- Empty two-body map. -/
def tbEmpty : TBMap := fun _ => none

/-- Two-body map with the complex entry `(1,2,2,1) = 0.1+0.2i`. -/
def tbC2 : TBMap :=
  fun k => if k = (1, 2, 2, 1) then some (.cplx ((1 : ℚ)/10) ((2 : ℚ)/10))
    else none

/-- Two-body map whose only key `(5,5,5,5)` references spin-orbital 5. -/
def tbBig : TBMap :=
  fun k => if k = (5, 5, 5, 5) then some (.real 1) else none

/-- Real two-body map with the single alpha-alpha key `(1,1,1,1)`. -/
def tbAA : TBMap :=
  fun k => if k = (1, 1, 1, 1) then some (.real ((675 : ℚ)/1000)) else none

/-- The completed two-body expansion of `tbBig` with one spatial
orbital (its only entry is never looked up). -/
def stBig : TBState := (twoBodyExpand tbBig 1).get (by rfl)

/-- The completed two-body expansion of `tbAA` with one spatial orbital. -/
def stAA : TBState := (twoBodyExpand tbAA 1).get (by rfl)

/-- The completed full expansion for the two-key float one-body store
and the empty two-body store with one spatial orbital. -/
def exSpinBlock : SpinBlockTensor := (expandAll obFull tbEmpty 1).get (by rfl)

end Examples

/-- Claim C1 counterexample: for a record whose only one-body entry is
`(1,1)` (with `n_spatial = 1`), the expansion pass fails (the beta
lookup at the absent key `(2,2)` raises `KeyError`) instead of leaving
`beta_one[0,0]` at zero. -/
theorem C1_counterexample : expandAll obOnly11 tbEmpty 1 = none := rfl

/-- Claim C1 (amended): for every spatial pair `(p,q)` the one-body
expansion fills `alpha_one[p,q]` from the sparse map at `(2p+1, 2q+1)`
and `beta_one[p,q]` from `(2p+2, 2q+2)` when every looked-up key is
present with a float value; when any looked-up key is absent the lookup
raises `KeyError`, and when it holds a complex value the assignment
into the float64 matrix raises `TypeError` (these are the two cases of
`(..).bind pyFloat64 = none`) — in either case the expansion fails
rather than leaving the corresponding entry at zero. -/
theorem C1_one_body_lookup (ob : OBMap) (n : ℕ) :
    ((∀ p q, p < n → q < n → ∃ a b,
        ob (2 * p + 1, 2 * q + 1) = some (.real a) ∧
        ob (2 * p + 2, 2 * q + 2) = some (.real b)) →
      ∃ A B, oneBodyExpand ob n = some (A, B) ∧
        ∀ p q, p < n → q < n →
          ob (2 * p + 1, 2 * q + 1) = some (.real (A (p, q))) ∧
          ob (2 * p + 2, 2 * q + 2) = some (.real (B (p, q)))) ∧
    ((∃ p q, p < n ∧ q < n ∧
        ((ob (2 * p + 1, 2 * q + 1)).bind pyFloat64 = none ∨
          (ob (2 * p + 2, 2 * q + 2)).bind pyFloat64 = none)) →
      oneBodyExpand ob n = none) := by
  constructor
  · intro h
    obtain ⟨A, B, hfold, hin, _⟩ :=
      @obFold_some ob (pairList n) (fun _ => 0, fun _ => 0) fun pq hpq => by
        rcases mem_pairList.1 hpq with ⟨hp, hq⟩
        obtain ⟨a, b, ha, hb⟩ := h pq.1 pq.2 hp hq
        rw [ha, hb]
        exact ⟨rfl, rfl⟩
    refine ⟨A, B, hfold, fun p q hp hq => ?_⟩
    obtain ⟨a, b, ha, hb⟩ := h p q hp hq
    obtain ⟨e1, e2⟩ := hin (p, q) (mem_pairList.2 ⟨hp, hq⟩)
    rw [ha] at e1
    rw [hb] at e2
    have e1' : some a = some (A (p, q)) := e1
    have e2' : some b = some (B (p, q)) := e2
    rw [ha, Option.some_inj.1 e1', hb, Option.some_inj.1 e2']
    exact ⟨rfl, rfl⟩
  · rintro ⟨p, q, hp, hq, hmiss⟩
    exact obFold_none (pairList n) _ (p, q) (mem_pairList.2 ⟨hp, hq⟩) hmiss

/-- Witness for C1: with float values at both keys `(1,1)` and `(2,2)`
and `n_spatial = 1`, the loop succeeds and each dense cell holds the
looked-up sparse value. -/
theorem C1_one_body_lookup_w :
    (∀ p q, p < 1 → q < 1 → ∃ a b,
      obFull (2 * p + 1, 2 * q + 1) = some (.real a) ∧
      obFull (2 * p + 2, 2 * q + 2) = some (.real b)) ∧
    (∃ A B, oneBodyExpand obFull 1 = some (A, B) ∧
      ∀ p q, p < 1 → q < 1 →
        obFull (2 * p + 1, 2 * q + 1) = some (.real (A (p, q))) ∧
        obFull (2 * p + 2, 2 * q + 2) = some (.real (B (p, q)))) := by
  have h : ∀ p q, p < 1 → q < 1 → ∃ a b,
      obFull (2 * p + 1, 2 * q + 1) = some (.real a) ∧
      obFull (2 * p + 2, 2 * q + 2) = some (.real b) := by
    intro p q hp hq
    interval_cases p
    interval_cases q
    exact ⟨-(5 : ℚ)/4, -(47 : ℚ)/100, rfl, rfl⟩
  exact ⟨h, (C1_one_body_lookup obFull 1).1 h⟩

/-- Claim C2 counterexample: for the complex record with two-body entry
`(1,2,2,1) = 0.1+0.2i` and one spatial orbital, the expansion pass
raises (`TypeError`: the blocks are float64 and cannot hold a complex
value) — no block ever stores `0.1+0.2i` or `0.1-0.2i`. -/
theorem C2_counterexample :
    twoBodyExpand tbC2 1 = none ∧ expandAll obFull tbC2 1 = none :=
  ⟨rfl, rfl⟩

/-- Claim C2 (amended): the conjugation the code computes for the two
swap-pair symmetry positions negates the imaginary part of the value
(`np.conj`), but a complex value (conjugated or not) can never be
assigned into the float64 blocks — the assignment raises `TypeError`,
so for the complex `(1,2,2,1) = 0.1+0.2i` record with one spatial
orbital the expansion fails and stores nothing; only float scalars are
actually written. -/
theorem C2_complex_write_raises :
    twoBodyExpand tbC2 1 = none ∧
    (∀ re im : ℚ, pyConj (.cplx re im) = .cplx re (-im)) ∧
    (∀ q : ℚ, pyConj (.real q) = .real q) ∧
    (∀ (t : TBTensor) (p q r s : ℕ) (re im : ℚ),
      writeSym t p q r s (.cplx re im) = none) ∧
    (∀ (t : TBTensor) (p q r s : ℕ) (x : ℚ),
      (writeSym t p q r s (.real x)).isSome) :=
  ⟨rfl, fun _ _ => rfl, fun _ => rfl, fun _ _ _ _ _ _ _ => rfl,
    fun _ _ _ _ _ _ => rfl⟩

/-- Claim C3 counterexample: with a two-body store whose only entry
references spin-orbital 5 and `n_spatial = 1` (so `5 > 2*n_spatial`),
the expansion completes and returns dense outputs (the entry is
silently dropped: `block_aa` stays zero) instead of failing fast. -/
theorem C3_counterexample :
    (expandAll obFull tbBig 1).isSome = true ∧
    twoBodyExpand tbBig 1 = some stBig ∧
    stBig.aa (0, 0, 0, 0) = 0 := by
  have hs : (twoBodyExpand tbBig 1).isSome = true := rfl
  refine ⟨rfl, (Option.some_get hs).symm, ?_⟩
  show truncT (fun _ => (0 : ℚ)) (0, 0, 0, 0) = 0
  unfold truncT
  split_ifs <;> rfl

/-- Claim C3 (amended): the expansion performs no dimension check; it
reads the sparse stores only at doubled keys whose components are all at
most `2*n_spatial`, so entries referencing larger spin-orbital indices
are silently ignored and the dense outputs are built and returned
unchanged. -/
theorem C3_no_dimension_check (ob ob' : OBMap) (tb tb' : TBMap) (n : ℕ)
    (hob : ∀ k : ℕ × ℕ, k.1 ≤ 2 * n → k.2 ≤ 2 * n → ob k = ob' k)
    (htb : ∀ k : Idx4, k.1 ≤ 2 * n → k.2.1 ≤ 2 * n → k.2.2.1 ≤ 2 * n →
      k.2.2.2 ≤ 2 * n → tb k = tb' k) :
    expandAll ob tb n = expandAll ob' tb' n := by
  have h1 : oneBodyExpand ob n = oneBodyExpand ob' n :=
    obFold_congr (pairList n) _ fun pq hpq => by
      rcases mem_pairList.1 hpq with ⟨hp, hq⟩
      exact ⟨hob _ (by show 2 * pq.1 + 1 ≤ 2 * n; omega)
          (by show 2 * pq.2 + 1 ≤ 2 * n; omega),
        hob _ (by show 2 * pq.1 + 2 ≤ 2 * n; omega)
          (by show 2 * pq.2 + 2 ≤ 2 * n; omega)⟩
  have h2 : twoBodyExpandRaw tb n = twoBodyExpandRaw tb' n :=
    tbFold_congr (quadList n) initTB fun x hx => by
      rcases mem_quadList.1 hx with ⟨ha, hb, hc, hd⟩
      refine ⟨htb _ ?_ ?_ ?_ ?_, htb _ ?_ ?_ ?_ ?_, htb _ ?_ ?_ ?_ ?_,
        htb _ ?_ ?_ ?_ ?_⟩ <;>
        simp only [aaKey, bbKey, abKey, baKey] <;> omega
  unfold expandAll twoBodyExpand
  rw [h1, h2]

/-- Witness for C3: the store with the out-of-range key `(5,5,5,5)` and
the empty store agree below the bound, so with `n_spatial = 1` the whole
expansion output is identical — the out-of-range entry is ignored. -/
theorem C3_no_dimension_check_w :
    (∀ k : ℕ × ℕ, k.1 ≤ 2 * 1 → k.2 ≤ 2 * 1 → obFull k = obFull k) ∧
    (∀ k : Idx4, k.1 ≤ 2 * 1 → k.2.1 ≤ 2 * 1 → k.2.2.1 ≤ 2 * 1 →
      k.2.2.2 ≤ 2 * 1 → tbBig k = tbEmpty k) ∧
    expandAll obFull tbBig 1 = expandAll obFull tbEmpty 1 := by
  have h1 : ∀ k : ℕ × ℕ, k.1 ≤ 2 * 1 → k.2 ≤ 2 * 1 → obFull k = obFull k :=
    fun _ _ _ => rfl
  have h2 : ∀ k : Idx4, k.1 ≤ 2 * 1 → k.2.1 ≤ 2 * 1 → k.2.2.1 ≤ 2 * 1 →
      k.2.2.2 ≤ 2 * 1 → tbBig k = tbEmpty k := by
    intro k ha hb hc hd
    have hk : k ≠ (5, 5, 5, 5) := by
      intro he
      subst he
      norm_num at ha
    simp only [tbBig, tbEmpty]
    rw [if_neg hk]
  exact ⟨h1, h2, C3_no_dimension_check obFull obFull tbBig tbEmpty 1 h1 h2⟩

/-- The three symmetry identities of one block at one quadruple;
`conjFloat` is `np.conj` on the (real) float64 entries, the identity. -/
theorem SymT_triple {t : TBTensor} (h : SymT t) (p q r s : ℕ) :
    t (p, q, r, s) = t (q, p, s, r) ∧
    t (p, q, r, s) = conjFloat (t (r, s, p, q)) ∧
    t (p, q, r, s) = conjFloat (t (s, r, q, p)) := by
  obtain ⟨e1, e2, e3⟩ := h (p, q, r, s)
  exact ⟨e1, e2, e3⟩

/-- Claim C4: after a completed two-body expansion pass (and
truncation), every cell of every block satisfies
`block[p,q,r,s] = block[q,p,s,r]`,
`block[p,q,r,s] = conj(block[r,s,p,q])` and
`block[p,q,r,s] = conj(block[s,r,q,p])`. The blocks are float64 arrays,
so their entries are real and `np.conj` on them (`conjFloat`) is the
identity; a pass that attempts to write a complex value raises instead
of completing. -/
theorem C4_symmetry (tb : TBMap) (n : ℕ) (st : TBState)
    (h : twoBodyExpand tb n = some st) :
    ∀ p q r s : ℕ,
      (st.aa (p, q, r, s) = st.aa (q, p, s, r) ∧
        st.aa (p, q, r, s) = conjFloat (st.aa (r, s, p, q)) ∧
        st.aa (p, q, r, s) = conjFloat (st.aa (s, r, q, p))) ∧
      (st.bb (p, q, r, s) = st.bb (q, p, s, r) ∧
        st.bb (p, q, r, s) = conjFloat (st.bb (r, s, p, q)) ∧
        st.bb (p, q, r, s) = conjFloat (st.bb (s, r, q, p))) ∧
      (st.ab (p, q, r, s) = st.ab (q, p, s, r) ∧
        st.ab (p, q, r, s) = conjFloat (st.ab (r, s, p, q)) ∧
        st.ab (p, q, r, s) = conjFloat (st.ab (s, r, q, p))) ∧
      (st.ba (p, q, r, s) = st.ba (q, p, s, r) ∧
        st.ba (p, q, r, s) = conjFloat (st.ba (r, s, p, q)) ∧
        st.ba (p, q, r, s) = conjFloat (st.ba (s, r, q, p))) := by
  have hs := SymSt_twoBodyExpand h
  intro p q r s
  exact ⟨SymT_triple hs.1 p q r s, SymT_triple hs.2.1 p q r s,
    SymT_triple hs.2.2.1 p q r s, SymT_triple hs.2.2.2 p q r s⟩

/-- Witness for C4: the expansion of the real store `(1,1,1,1) = 0.675`
completes, and the conjugated symmetry holds at the populated cell of
`block_aa`. -/
theorem C4_symmetry_w :
    twoBodyExpand tbAA 1 = some stAA ∧
    stAA.aa (0, 0, 0, 0) = conjFloat (stAA.aa (0, 0, 0, 0)) := by
  have hs : (twoBodyExpand tbAA 1).isSome = true := rfl
  have he : twoBodyExpand tbAA 1 = some stAA := (Option.some_get hs).symm
  exact ⟨he, ((C4_symmetry tbAA 1 stAA he 0 0 0 0).1).2.2⟩

/-- Claim C5: a two-body store holding alpha-alpha-doubled keys and no
beta-beta-, alpha-beta- or beta-alpha-doubled keys makes any completed
expansion produce four numerically identical output blocks. -/
theorem C5_restricted_shell (tb : TBMap) (n : ℕ)
    (haa : ∃ x : Idx4, (tb (aaKey x)).isSome)
    (hno : ∀ x : Idx4, tb (bbKey x) = none ∧ tb (abKey x) = none ∧
      tb (baKey x) = none) :
    ∀ st : TBState, twoBodyExpand tb n = some st →
      st.aa = st.bb ∧ st.aa = st.ab ∧ st.aa = st.ba := by
  intro st h
  unfold twoBodyExpand at h
  rw [Option.map_eq_some'] at h
  obtain ⟨raw, hraw, rfl⟩ := h
  have he : EqSt raw :=
    EqSt_foldl (quadList n) (fun x _ => hno x) ⟨rfl, rfl, rfl⟩ hraw
  obtain ⟨e1, e2, e3⟩ := he
  refine ⟨?_, ?_, ?_⟩
  · show truncT raw.aa = truncT raw.bb
    rw [e1]
  · show truncT raw.aa = truncT raw.ab
    rw [e2]
  · show truncT raw.aa = truncT raw.ba
    rw [e3]

/-- Witness for C5: the store `(1,1,1,1) = 0.675` holds an alpha-alpha
key and no beta-beta/alpha-beta/beta-alpha key, its expansion completes,
and all four blocks coincide. -/
theorem C5_restricted_shell_w :
    (∃ x : Idx4, (tbAA (aaKey x)).isSome) ∧
    (∀ x : Idx4, tbAA (bbKey x) = none ∧ tbAA (abKey x) = none ∧
      tbAA (baKey x) = none) ∧
    twoBodyExpand tbAA 1 = some stAA ∧
    (stAA.aa = stAA.bb ∧ stAA.aa = stAA.ab ∧ stAA.aa = stAA.ba) := by
  have haa : ∃ x : Idx4, (tbAA (aaKey x)).isSome := ⟨(0, 0, 0, 0), rfl⟩
  have hno : ∀ x : Idx4, tbAA (bbKey x) = none ∧ tbAA (abKey x) = none ∧
      tbAA (baKey x) = none := by
    intro x
    refine ⟨?_, ?_, ?_⟩
    · have h : bbKey x ≠ (1, 1, 1, 1) := by
        simp only [bbKey, ne_eq, Prod.mk.injEq]
        omega
      simp only [tbAA]
      rw [if_neg h]
    · have h : abKey x ≠ (1, 1, 1, 1) := by
        simp only [abKey, ne_eq, Prod.mk.injEq]
        omega
      simp only [tbAA]
      rw [if_neg h]
    · have h : baKey x ≠ (1, 1, 1, 1) := by
        simp only [baKey, ne_eq, Prod.mk.injEq]
        omega
      simp only [tbAA]
      rw [if_neg h]
  have hs : (twoBodyExpand tbAA 1).isSome = true := rfl
  have he : twoBodyExpand tbAA 1 = some stAA := (Option.some_get hs).symm
  exact ⟨haa, hno, he, C5_restricted_shell tbAA 1 haa hno stAA he⟩

/-- Claim C6: every element of every dense output of a completed
expansion pass whose magnitude is strictly below the tolerance is
exactly zero, and re-applying the truncation step to any output leaves
it unchanged (idempotence). -/
theorem C6_truncation (ob : OBMap) (tb : TBMap) (n : ℕ)
    (res : SpinBlockTensor) (h : expandAll ob tb n = some res) :
    (∀ i, |res.alpha_one i| < tol → res.alpha_one i = 0) ∧
    (∀ i, |res.beta_one i| < tol → res.beta_one i = 0) ∧
    (∀ i, |res.aa i| < tol → res.aa i = 0) ∧
    (∀ i, |res.bb i| < tol → res.bb i = 0) ∧
    (∀ i, |res.ab i| < tol → res.ab i = 0) ∧
    (∀ i, |res.ba i| < tol → res.ba i = 0) ∧
    truncM res.alpha_one = res.alpha_one ∧
    truncM res.beta_one = res.beta_one ∧
    truncT res.aa = res.aa ∧ truncT res.bb = res.bb ∧
    truncT res.ab = res.ab ∧ truncT res.ba = res.ba := by
  unfold expandAll at h
  cases hob : oneBodyExpand ob n with
  | none =>
      rw [hob] at h
      exact Option.noConfusion h
  | some ab =>
      rw [hob] at h
      have h2 : (match twoBodyExpand tb n with
          | none => none
          | some st => some (SpinBlockTensor.mk (truncM ab.1) (truncM ab.2)
              st.aa st.bb st.ab st.ba)) = some res := h
      cases htb : twoBodyExpand tb n with
      | none =>
          rw [htb] at h2
          exact Option.noConfusion h2
      | some st =>
          rw [htb] at h2
          unfold twoBodyExpand at htb
          rw [Option.map_eq_some'] at htb
          obtain ⟨raw, hraw, hst⟩ := htb
          subst hst
          cases h2
          exact ⟨truncM_small _, truncM_small _, truncT_small _,
            truncT_small _, truncT_small _, truncT_small _, truncM_idem _,
            truncM_idem _, truncT_idem _, truncT_idem _, truncT_idem _,
            truncT_idem _⟩

/-- Witness for C6: a completed concrete expansion, on which truncation
is indeed a fixed point. -/
theorem C6_truncation_w :
    expandAll obFull tbEmpty 1 = some exSpinBlock ∧
    truncT exSpinBlock.aa = exSpinBlock.aa := by
  have hs : (expandAll obFull tbEmpty 1).isSome = true := rfl
  have he : expandAll obFull tbEmpty 1 = some exSpinBlock :=
    (Option.some_get hs).symm
  exact ⟨he,
    (C6_truncation obFull tbEmpty 1 exSpinBlock he).2.2.2.2.2.2.2.2.1⟩

/-- Stream whose single data row is `1.5 0 5 0 0`: `idx1 = 0`,
`idx2 = 5`, `idx3 = idx4 = 0`. -/
def linesC7 : List Line :=
  [⟨true, []⟩,
   ⟨false, [.floatTok ((3 : ℚ)/2), .intTok 0, .intTok 5, .intTok 0,
     .intTok 0]⟩]

/-- The record parsed from `linesC7`. -/
def recC7 : IntegralRecord := (get_integrals linesC7).get (by rfl)

/-- Claim C7 counterexample: a data row with `idx1 = 0`, `idx2 = 5` and
`idx3 = idx4 = 0` is accepted and produces the one-body entry keyed
`(0, 5)` — a row with `idx1 = 0` does produce a one-body entry. -/
theorem C7_counterexample :
    get_integrals linesC7 = some recC7 ∧
    recC7.one_body (0, 5) = some (.real ((3 : ℚ)/2)) := by
  have hs : (get_integrals linesC7).isSome = true := rfl
  exact ⟨(Option.some_get hs).symm, rfl⟩

/-- Claim C7 (amended): in every record produced by the parser, every
key of the one-body map has a non-zero second index; the first index may
be zero (the code only tests `idx2` before storing `(idx1, idx2)`). -/
theorem C7_one_body_key_shape (lines : List Line) (rec : IntegralRecord)
    (h : get_integrals lines = some rec) :
    ∀ k : ℤ × ℤ, (rec.one_body k).isSome → k.2 ≠ 0 := by
  unfold get_integrals at h
  cases hsp : splitHeader lines with
  | none =>
      rw [hsp] at h
      exact Option.noConfusion h
  | some rest =>
      rw [hsp] at h
      have h2 : parseData rest = some rec := h
      unfold parseData at h2
      cases hm : rest.map Line.toks with
      | nil =>
          rw [hm] at h2
          exact Option.noConfusion h2
      | cons first others =>
          rw [hm] at h2
          have hinit : OneBodyKeysOk initRecord := by
            intro k hk
            simp [initRecord] at hk
          have h3 : (if first.length = 6 then
              List.foldlM parseComplexRow initRecord (first :: others)
              else List.foldlM parseRealRow initRecord (first :: others)) =
              some rec := h2
          split_ifs at h3 with hlen
          · exact foldlM_pres parseComplexRow OneBodyKeysOk
              (fun a r r' hstep hp => by
                obtain ⟨a1, a2, a3, a4, vre, vim, _, _, _, _, _, _, he⟩ :=
                  parseComplexRow_some hstep
                rw [he]
                exact classifyRow_pres hp a1 a2 a3 a4 (.cplx vre vim))
              (first :: others) initRecord rec h3 hinit
          · exact foldlM_pres parseRealRow OneBodyKeysOk
              (fun a r r' hstep hp => by
                obtain ⟨a1, a2, a3, a4, v, _, _, _, _, _, he⟩ :=
                  parseRealRow_some hstep
                rw [he]
                exact classifyRow_pres hp a1 a2 a3 a4 (.real v))
              (first :: others) initRecord rec h3 hinit

/-- Witness for C7: the concrete parse of `linesC7` succeeds, and the
amended invariant applied at the populated key `(0, 5)` gives `5 ≠ 0`. -/
theorem C7_one_body_key_shape_w :
    get_integrals linesC7 = some recC7 ∧
    ((recC7.one_body (0, 5)).isSome → (5 : ℤ) ≠ 0) := by
  have hs : (get_integrals linesC7).isSome = true := rfl
  have he : get_integrals linesC7 = some recC7 := (Option.some_get hs).symm
  exact ⟨he, fun hk => C7_one_body_key_shape linesC7 recC7 he (0, 5) hk⟩

/-- Real-classified stream (first data row has 5 tokens) whose second
data row has 6 tokens: `2.0 1 2 0 0 9`. -/
def linesC8 : List Line :=
  [⟨true, []⟩,
   ⟨false, [.floatTok ((7 : ℚ)/10), .intTok 0, .intTok 0, .intTok 0,
     .intTok 0]⟩,
   ⟨false, [.floatTok 2, .intTok 1, .intTok 2, .intTok 0, .intTok 0,
     .intTok 9]⟩]

/-- The record parsed from `linesC8`. -/
def recC8 : IntegralRecord := (get_integrals linesC8).get (by rfl)

/-- Claim C8 counterexample: in a real-classified file a 6-token data
row is NOT a hard failure — the conversion succeeds, the row's first
five tokens are consumed (producing `one_body[(1,2)] = 2.0`) and the
sixth token is silently ignored. -/
theorem C8_counterexample :
    get_integrals linesC8 = some recC8 ∧
    recC8.one_body (1, 2) = some (.real (2 : ℚ)) ∧
    ((linesC8.map Line.toks).get? 2).map List.length = some 6 ∧
    ((linesC8.map Line.toks).get? 1).map List.length = some 5 := by
  have hs : (get_integrals linesC8).isSome = true := rfl
  exact ⟨(Option.some_get hs).symm, rfl, rfl, rfl⟩

/-- Claim C8 (amended): a successful conversion forces every data row to
supply integer-parsable tokens at its four consumed index positions and
float-parsable tokens at its consumed value position(s) (hence at least
5 resp. 6 tokens); rows failing this abort the whole conversion, while
tokens beyond the consumed positions are ignored. -/
theorem C8_malformed_rows (lines : List Line) (rest : List Line)
    (rec : IntegralRecord) (h : get_integrals lines = some rec)
    (hsp : splitHeader lines = some rest) : dataRowsOk rest = true := by
  unfold get_integrals at h
  rw [hsp] at h
  have h2 : parseData rest = some rec := h
  unfold parseData at h2
  unfold dataRowsOk
  cases hm : rest.map Line.toks with
  | nil =>
      rw [hm] at h2
      exact Option.noConfusion h2
  | cons first others =>
      rw [hm] at h2
      have h3 : (if first.length = 6 then
          List.foldlM parseComplexRow initRecord (first :: others)
          else List.foldlM parseRealRow initRecord (first :: others)) =
          some rec := h2
      show (if first.length = 6 then (first :: others).all cplxRowOk
        else (first :: others).all realRowOk) = true
      split_ifs at h3 ⊢ with hlen
      · exact List.all_eq_true.2 fun a ha =>
          foldlM_rows parseComplexRow cplxRowOk
            (fun r r' a hstep => parseComplexRow_ok hstep)
            (first :: others) initRecord rec h3 a ha
      · exact List.all_eq_true.2 fun a ha =>
          foldlM_rows parseRealRow realRowOk
            (fun r r' a hstep => parseRealRow_ok hstep)
            (first :: others) initRecord rec h3 a ha

/-- Witness for C8: the successful concrete parse of `linesC8` indeed
has all data rows well-formed at their consumed positions (the 6-token
row included). -/
theorem C8_malformed_rows_w :
    get_integrals linesC8 = some recC8 ∧
    splitHeader linesC8 = some (linesC8.drop 1) ∧
    dataRowsOk (linesC8.drop 1) = true := by
  have hs : (get_integrals linesC8).isSome = true := rfl
  have he : get_integrals linesC8 = some recC8 := (Option.some_get hs).symm
  have hsp : splitHeader linesC8 = some (linesC8.drop 1) := rfl
  exact ⟨he, hsp, C8_malformed_rows linesC8 (linesC8.drop 1) recC8 he hsp⟩

/-- Claim C9: the header ends at the first line containing `&END`
(anywhere in the line), and exactly the lines after that line are handed
to the data phase. -/
theorem C9_header_skip (pre post : List Line) (endl : Line)
    (hpre : ∀ l ∈ pre, l.hasEnd = false) (he : endl.hasEnd = true) :
    splitHeader (pre ++ endl :: post) = some post ∧
    get_integrals (pre ++ endl :: post) = parseData post := by
  have h := splitHeader_append pre endl post hpre he
  refine ⟨h, ?_⟩
  unfold get_integrals
  rw [h]

/-- Header lines without `&END` before the terminator line. -/
def preC9 : List Line := [⟨false, [.badTok]⟩]

/-- A terminator line containing `&END` mid-line together with other
tokens. -/
def endC9 : Line := ⟨true, [.intTok 3]⟩

/-- The data lines after the terminator. -/
def postC9 : List Line :=
  [⟨false, [.floatTok ((7 : ℚ)/10), .intTok 0, .intTok 0, .intTok 0,
    .intTok 0]⟩]

/-- Witness for C9: a concrete stream with one non-terminator header
line and a mid-line terminator; exactly the one line after it is parsed
as data. -/
theorem C9_header_skip_w :
    (∀ l ∈ preC9, l.hasEnd = false) ∧ endC9.hasEnd = true ∧
    get_integrals (preC9 ++ endC9 :: postC9) = parseData postC9 := by
  have h1 : ∀ l ∈ preC9, l.hasEnd = false := by decide
  have h2 : endC9.hasEnd = true := rfl
  exact ⟨h1, h2, (C9_header_skip preC9 postC9 endC9 h1 h2).2⟩

/-- Claim C10: on a stream with no `&END` line at all, or with no data
row after the terminator line, the parser fails (the classification step
indexes the empty row list) — it is not total on such inputs. -/
theorem C10_empty_or_no_end (lines : List Line)
    (h : (∀ l ∈ lines, l.hasEnd = false) ∨ splitHeader lines = some []) :
    get_integrals lines = none := by
  unfold get_integrals
  rcases h with h | h
  · rw [splitHeader_none lines h]
  · rw [h]
    rfl

/-- A terminator-less stream: every line is consumed as header. -/
def linesC10 : List Line := [⟨false, [Token.intTok 1]⟩, ⟨false, []⟩]

/-- Witness for C10: the concrete terminator-less stream makes the
parser fail. -/
theorem C10_empty_or_no_end_w :
    ((∀ l ∈ linesC10, l.hasEnd = false) ∨ splitHeader linesC10 = some []) ∧
    get_integrals linesC10 = none := by
  have h : (∀ l ∈ linesC10, l.hasEnd = false) ∨
      splitHeader linesC10 = some [] := Or.inl (by decide)
  exact ⟨h, C10_empty_or_no_end linesC10 h⟩
